import Mathlib

/-!
# Verification of the sc2remap input-remapping daemon

A shallow embedding of `src/main.rs`: the `keymap` table, the layer-key
(KEY_GRAVE) remapping state machine that runs in the keyboard branch of the
main event loop, the mouse wheel-to-page-key translator, the buffered-source
drain loop `process_event`, and the startup device-role identification.

Key codes are the Linux input event codes (`input-event-codes.h`) that the
`evdev` enums in the source denote.  Event values are modelled as `Int`
(the source's `i32`): `1` = press, `0` = release, `2` = autorepeat for key
events, signed delta for relative-motion events.
-/

set_option autoImplicit false

namespace Sc2Remap

def KEY_RESERVED : Nat := 0
def KEY_LEFTCTRL : Nat := 29
def KEY_GRAVE : Nat := 41
def KEY_LEFTSHIFT : Nat := 42
def KEY_RIGHTSHIFT : Nat := 54
def KEY_LEFTALT : Nat := 56
def KEY_RIGHTCTRL : Nat := 97
def KEY_RIGHTALT : Nat := 100
def KEY_PAGEUP : Nat := 104
def KEY_PAGEDOWN : Nat := 109
def KEY_LEFTMETA : Nat := 125
def KEY_RIGHTMETA : Nat := 126
def BTN_LEFT : Nat := 272
def BTN_RIGHT : Nat := 273
def BTN_MIDDLE : Nat := 274
def BTN_SIDE : Nat := 275
def BTN_EXTRA : Nat := 276
def REL_WHEEL : Nat := 8
def SYN_REPORT : Nat := 0

/-- The event-code classes the program distinguishes: `EV_KEY`, `EV_REL`,
`EV_SYN`, `EV_MSC` (anything else behaves like the last two: forwarded by the
keyboard handler, ignored by the mouse handler). -/
inductive EventCode where
  | key : Nat → EventCode
  | rel : Nat → EventCode
  | syn : Nat → EventCode
  | msc : Nat → EventCode
deriving DecidableEq, Repr

/-- The source's `InputEvent`: timestamp, event code, value. -/
structure Event where
  time : Nat
  code : EventCode
  value : Int
deriving DecidableEq, Repr

/-- The source's `fn keymap`: `None` for the eight
modifier keys, `Some(key.clone())` for every other key. -/
def keymap (k : Nat) : Option Nat :=
  if k = KEY_LEFTCTRL ∨ k = KEY_RIGHTCTRL ∨
     k = KEY_LEFTSHIFT ∨ k = KEY_RIGHTSHIFT ∨
     k = KEY_LEFTALT ∨ k = KEY_RIGHTALT ∨
     k = KEY_LEFTMETA ∨ k = KEY_RIGHTMETA
  then none
  else some k

/-- Whether `keymap k = none`, as a Bool: `k` is one of the eight modifier keys. -/
def isMod (k : Nat) : Bool := (keymap k).isNone

/-- The source's `struct State`: current_key, next_key, held. -/
structure State where
  current_key : Option Nat
  next_key : Nat
  held : Bool
deriving DecidableEq, Repr

/-- The state `main` builds before entering the event loop. -/
def initState : State :=
  { current_key := none, next_key := KEY_GRAVE, held := false }

/-- The keyboard-branch closure of the main event loop (src/main.rs lines
251-316): one keyboard event in, the new `State` and the list of events
written to the uinput device, in write order.

The Rust match arms, in order: `EV_KEY(KEY_GRAVE) if value == 0`,
`EV_KEY(KEY_GRAVE)` (any non-zero value), `EV_KEY(k)`, `_`; the first two
arms `return` before the final `write_event(&event)`, everything else falls
through to it. -/
def keebStep (s : State) (e : Event) : State × List Event :=
  match e.code with
  | EventCode.key k =>
    if k = KEY_GRAVE then
      if e.value = 0 then
        match s.current_key with
        | some ck =>
          ({ s with current_key := none }, [{ e with code := EventCode.key ck }])
        | none => (s, [e])
      else
        ({ s with current_key := some s.next_key },
          (if e.value = 1 ∧ s.held = true then
            [{ e with code := EventCode.key s.next_key, value := 0 }]
          else []) ++ [{ e with code := EventCode.key s.next_key }])
    else
      match keymap k with
      | some mapped =>
        if e.value = 0 then
          ((if mapped = s.next_key then { s with held := false } else s), [e])
        else
          ({ s with next_key := mapped, held := true },
            (if s.current_key = some mapped then [{ e with value := 0 }] else []) ++ [e])
      | none => (s, [e])
  | _ => (s, [e])

/-- Iterate `keebStep` over a list of keyboard events, concatenating the
outputs in order. -/
def runKeeb (s : State) : List Event → State × List Event
  | [] => (s, [])
  | e :: rest =>
    let r1 := keebStep s e
    let r2 := runKeeb r1.1 rest
    (r2.1, r1.2 ++ r2.2)

/-- The source's `fn inject_btn`: press, sync-report, release, sync-report, all with the
incoming event's timestamp. -/
def inject_btn (time : Nat) (btn : Nat) : List Event :=
  [ { time := time, code := EventCode.key btn, value := 1 },
    { time := time, code := EventCode.syn SYN_REPORT, value := 0 },
    { time := time, code := EventCode.key btn, value := 0 },
    { time := time, code := EventCode.syn SYN_REPORT, value := 0 } ]

/-- The mouse-branch closure of the main event loop (src/main.rs lines
318-337): wheel `+1` taps PageUp, wheel `-1` taps PageDown, everything else
is dropped.  It captures no part of `State`. -/
def mouseStep (e : Event) : List Event :=
  match e.code with
  | EventCode.rel r =>
    if r = REL_WHEEL ∧ e.value = 1 then inject_btn e.time KEY_PAGEUP
    else if r = REL_WHEEL ∧ e.value = -1 then inject_btn e.time KEY_PAGEDOWN
    else []
  | _ => []

/-- Iterate `mouseStep` over a list of mouse events. -/
def mouseRun : List Event → List Event
  | [] => []
  | e :: rest => mouseStep e ++ mouseRun rest

/-- The expected output for a list of same-valued wheel events: one complete
tap per event, in order. -/
def taps (btn : Nat) : List Nat → List Event
  | [] => []
  | t :: ts => inject_btn t btn ++ taps btn ts

/-- Which handler an event loop iteration dispatches to. -/
inductive Source where
  | keyboard
  | mouse
deriving DecidableEq

/-- One iteration step of the main event loop: keyboard events go through the
remap state machine, mouse events through the stateless gesture translator. -/
def loopStep (s : State) (src : Source) (e : Event) : State × List Event :=
  match src with
  | Source.keyboard => keebStep s e
  | Source.mouse => (s, mouseStep e)

/-- Result of one `device.next_event(ReadFlag::NORMAL)` call: a decoded
event, a `WouldBlock` error, or any other read error. -/
inductive ReadResult where
  | ok : Event → ReadResult
  | wouldBlock : ReadResult
  | err : ReadResult
deriving DecidableEq

/-- The source's `fn process_event`: repeatedly read; deliver each decoded event to the
handler in order; stop at `WouldBlock`; any other error aborts the process
(modelled as `none`).  A real non-blocking device always eventually reports
`WouldBlock`, so the `[]` case is unreachable on faithful read traces; it is
mapped to the aborting result. -/
def process_event : List ReadResult → Option (List Event × List ReadResult)
  | [] => none
  | ReadResult.ok e :: rest =>
    match process_event rest with
    | some (d, r) => some (e :: d, r)
    | none => none
  | ReadResult.wouldBlock :: rest => some ([], rest)
  | ReadResult.err :: _ => none

/-- The role-identification closure (src/main.rs lines 162-187), applied to
one event from source `id`; the accumulator is `(keeb_id, mouse_id)`.
The match arms, in order: the five mouse buttons or any `EV_REL` code claim
the mouse role; any other `EV_KEY` with `value == 0` claims the keyboard
role; everything else is ignored. -/
def identStep (st : Option Nat × Option Nat) (p : Nat × Event) :
    Option Nat × Option Nat :=
  match p.2.code with
  | EventCode.key k =>
    if k = BTN_LEFT ∨ k = BTN_RIGHT ∨ k = BTN_MIDDLE ∨ k = BTN_EXTRA ∨ k = BTN_SIDE
    then (st.1, if st.2 = none then some p.1 else st.2)
    else (if p.2.value = 0 ∧ st.1 = none then some p.1 else st.1, st.2)
  | EventCode.rel _ => (st.1, if st.2 = none then some p.1 else st.2)
  | _ => st

/-- One drained batch of identification events (one `process_event` call). -/
def identBatch (st : Option Nat × Option Nat) :
    List (Nat × Event) → Option Nat × Option Nat
  | [] => st
  | p :: rest => identBatch (identStep st p) rest

/-- The identification loop: after each drained batch, return as soon as both
roles are filled. -/
def identLoop (st : Option Nat × Option Nat) :
    List (List (Nat × Event)) → Option (Nat × Nat)
  | [] => none
  | b :: bs =>
    match identBatch st b with
    | (some kid, some mid) => some (kid, mid)
    | st' => identLoop st' bs

/-- Point update of a key-indexed boolean map. -/
def updMap (D : Nat → Bool) (k : Nat) (b : Bool) : Nat → Bool :=
  fun j => if j = k then b else D j

/-- A map with every key up; the physical and output key state before any
event has been seen. -/
def noKeys : Nat → Bool := fun _ => false

/-- A single output event is admissible for down-map `D`: a press (value 1)
of a key that `D` already marks down is the duplicate press the spec
forbids. -/
def okEv (D : Nat → Bool) (e : Event) : Bool :=
  match e.code with
  | EventCode.key k => if e.value = 1 then !(D k) else true
  | _ => true

/-- Advance a key-down map over one event: value 1 marks the key down,
value 0 marks it up, anything else (autorepeat) leaves it unchanged. -/
def stepDown (D : Nat → Bool) (e : Event) : Nat → Bool :=
  match e.code with
  | EventCode.key k =>
    if e.value = 1 then updMap D k true
    else if e.value = 0 then updMap D k false
    else D
  | _ => D

/-- The stream contains no press of a key that is already down (and whose
release has not intervened). -/
def noDup (D : Nat → Bool) : List Event → Bool
  | [] => true
  | e :: rest => okEv D e && noDup (stepDown D e) rest

/-- A single physical event is well-formed for physical key state `phys`:
presses only of keys that are up, releases and autorepeats only of keys that
are down, key values restricted to 0, 1, 2; non-key events unconstrained. -/
def okPhys (phys : Nat → Bool) (e : Event) : Bool :=
  match e.code with
  | EventCode.key k =>
    if e.value = 1 then !(phys k)
    else if e.value = 0 then phys k
    else if e.value = 2 then phys k
    else false
  | _ => true

/-- Well-formed physical input: each key alternates press/release and
repeats only while held. -/
def wf (phys : Nat → Bool) : List Event → Bool
  | [] => true
  | e :: rest => okPhys phys e && wf (stepDown phys e) rest

/-- The input contains no autorepeat (value 2) event of the layer key. -/
def graveRepeatFree : List Event → Bool
  | [] => true
  | e :: rest =>
    (if e.code = EventCode.key KEY_GRAVE ∧ e.value = 2 then false else true)
      && graveRepeatFree rest

/-- The invariant tying the machine state to the physical key state `phys`
and the output key state `D`, preserved by every well-formed keyboard event
that is not a layer-key autorepeat:
1. the layer key is physically down exactly while `current_key` is set;
2. the layer key is down in the output only while it is itself the
   substitution in flight;
3. a remappable key down in the output is physically down or is the
   substitution in flight;
4. while `held` is false, `next_key` is up in the output unless it is the
   substitution in flight;
5. modifier keys pass through, so their output state equals their physical
   state;
6. `next_key` is never a modifier;
7. the substitution in flight is never a modifier. -/
def Inv (s : State) (phys D : Nat → Bool) : Prop :=
  (phys KEY_GRAVE = true ↔ s.current_key ≠ none) ∧
  (D KEY_GRAVE = true → s.current_key = some KEY_GRAVE) ∧
  (∀ k, isMod k = false → k ≠ KEY_GRAVE → D k = true →
    phys k = true ∨ s.current_key = some k) ∧
  (s.held = false → D s.next_key = false ∨ s.current_key = some s.next_key) ∧
  (∀ m, isMod m = true → D m = phys m) ∧
  isMod s.next_key = false ∧
  (∀ c, s.current_key = some c → isMod c = false)

/-- The state fields that synthetic events can mention never name a modifier
key; it holds of `initState` and is preserved by `keebStep`. -/
def stateOk (s : State) : Prop :=
  isMod s.next_key = false ∧ ∀ c, s.current_key = some c → isMod c = false

/-- The subsequence of events carrying key code `k`. -/
def filterKey (k : Nat) (l : List Event) : List Event :=
  l.filter fun e => decide (e.code = EventCode.key k)

/-- The key a single event makes `next_key` point at, if any: a non-zero
value on a key the keymap remaps — the layer key bypasses the keymap. -/
def pressTarget (e : Event) : Option Nat :=
  match e.code with
  | EventCode.key k =>
    if e.value ≠ 0 ∧ isMod k = false ∧ k ≠ KEY_GRAVE then some k else none
  | _ => none

/-- The most recently pressed-or-repeated key that the keymap remaps, layer
key excluded. -/
def lastRemapPress : List Event → Option Nat
  | [] => none
  | e :: rest =>
    match lastRemapPress rest with
    | some k => some k
    | none => pressTarget e

/-- The most recently pressed-or-repeated non-modifier key, the layer key
included — the reading under which claim C9 fails. -/
def lastNonModPress : List Event → Option Nat
  | [] => none
  | e :: rest =>
    match lastNonModPress rest with
    | some k => some k
    | none =>
      match e.code with
      | EventCode.key k => if e.value ≠ 0 ∧ isMod k = false then some k else none
      | _ => none

/-- A well-formed physical keyboard input on which the program emits a
duplicate press: press/release 30, layer press (captures 30), press 48,
layer autorepeat (re-captures 48, orphaning the synthetic press of 30),
release 48, press 30. -/
def c4bad : List Event :=
  [ ⟨0, EventCode.key 30, 1⟩, ⟨1, EventCode.key 30, 0⟩,
    ⟨2, EventCode.key KEY_GRAVE, 1⟩, ⟨3, EventCode.key 48, 1⟩,
    ⟨4, EventCode.key KEY_GRAVE, 2⟩, ⟨5, EventCode.key 48, 0⟩,
    ⟨6, EventCode.key 30, 1⟩ ]

/-- Press of key 30, then press of the layer key: afterwards `next_key` is
still 30, yet the most recently pressed non-modifier key is the layer key
itself (the keymap does not treat it as a modifier). -/
def c9bad : List Event :=
  [ ⟨0, EventCode.key 30, 1⟩, ⟨1, EventCode.key KEY_GRAVE, 1⟩ ]

/-! ## Basic facts about the keymap -/

theorem keymap_some_eq {k m : Nat} (h : keymap k = some m) : m = k := by
  unfold keymap at h
  split at h
  · exact absurd h (by simp)
  · exact (Option.some.injEq _ _ ▸ h).symm

theorem keymap_of_not_mod {k : Nat} (h : isMod k = false) : keymap k = some k := by
  unfold isMod at h
  cases hk : keymap k with
  | none => rw [hk] at h; simp [Option.isNone] at h
  | some m => rw [keymap_some_eq hk]

theorem isMod_false_of_keymap_some {k m : Nat} (h : keymap k = some m) :
    isMod k = false := by
  unfold isMod
  rw [h]
  rfl

theorem isMod_grave : isMod KEY_GRAVE = false := by decide

/-! ## Claim C2: layer-key press and repeat -/

/-- Claim C2: pressing the layer key (value 1) while `held` is true emits a
synthetic release of `next_key` immediately followed by a press of
`next_key`, and sets `current_key = Some(next_key)`; pressing with `held`
false, or repeating (value 2), emits only the press/repeat of `next_key`
with the original value; in every case the raw layer-key event is not
forwarded — the output is exactly the rewritten events. -/
theorem claim2_layer_press (s : State) (t : Nat) :
    (s.held = true →
      keebStep s ⟨t, EventCode.key KEY_GRAVE, 1⟩ =
        ({ s with current_key := some s.next_key },
         [⟨t, EventCode.key s.next_key, 0⟩, ⟨t, EventCode.key s.next_key, 1⟩])) ∧
    (s.held = false →
      keebStep s ⟨t, EventCode.key KEY_GRAVE, 1⟩ =
        ({ s with current_key := some s.next_key },
         [⟨t, EventCode.key s.next_key, 1⟩])) ∧
    keebStep s ⟨t, EventCode.key KEY_GRAVE, 2⟩ =
      ({ s with current_key := some s.next_key },
       [⟨t, EventCode.key s.next_key, 2⟩]) :=
  ⟨fun h => by simp [keebStep, h], fun h => by simp [keebStep, h],
   by simp [keebStep]⟩

/-- Witness for C2 at a concrete held state. -/
theorem claim2_layer_press_witness :
    keebStep { current_key := none, next_key := 30, held := true }
        ⟨7, EventCode.key KEY_GRAVE, 1⟩ =
      ({ current_key := some 30, next_key := 30, held := true },
       [⟨7, EventCode.key 30, 0⟩, ⟨7, EventCode.key 30, 1⟩]) :=
  (claim2_layer_press { current_key := none, next_key := 30, held := true } 7).1 rfl

/-! ## Claim C3: non-layer keys -/

/-- Claim C3: for a non-layer key `k` with `keymap k = some mapped`, a press
or repeat sets `next_key = mapped` and `held = true` and, when
`current_key = Some(mapped)`, first emits a synthetic release of `mapped`;
a release sets `held = false` exactly when `mapped = next_key`; in both
cases the raw event is forwarded unchanged; when `keymap k = none` no state
field changes and the raw event is forwarded unchanged. -/
theorem claim3_direct_keys (s : State) (t : Nat) (k : Nat) (v : Int) :
    (∀ m, k ≠ KEY_GRAVE → keymap k = some m → v = 1 ∨ v = 2 →
      keebStep s ⟨t, EventCode.key k, v⟩ =
        ({ s with next_key := m, held := true },
         (if s.current_key = some m then [⟨t, EventCode.key m, 0⟩] else [])
           ++ [⟨t, EventCode.key k, v⟩])) ∧
    (∀ m, k ≠ KEY_GRAVE → keymap k = some m →
      keebStep s ⟨t, EventCode.key k, 0⟩ =
        ((if m = s.next_key then { s with held := false } else s),
         [⟨t, EventCode.key k, 0⟩])) ∧
    (k ≠ KEY_GRAVE → keymap k = none →
      keebStep s ⟨t, EventCode.key k, v⟩ = (s, [⟨t, EventCode.key k, v⟩])) := by
  refine ⟨fun m hk hm hv => ?_, fun m hk hm => ?_, fun hk hm => ?_⟩
  · have hmk : m = k := keymap_some_eq hm
    have hv0 : ¬ (v = 0) := by rcases hv with h | h <;> simp [h]
    subst hmk
    simp [keebStep, hk, hm, hv0]
  · simp [keebStep, hk, hm]
  · rcases Decidable.em (v = 0) with h0 | h0 <;> simp [keebStep, hk, hm, h0]

/-- Witness for C3: a collision press at a concrete state. -/
theorem claim3_direct_keys_witness :
    keebStep { current_key := some 30, next_key := 48, held := false }
        ⟨9, EventCode.key 30, 1⟩ =
      ({ current_key := some 30, next_key := 30, held := true },
       [⟨9, EventCode.key 30, 0⟩, ⟨9, EventCode.key 30, 1⟩]) := by
  have h := (claim3_direct_keys
      { current_key := some 30, next_key := 48, held := false } 9 30 1).1
      30 (by decide) (by decide) (Or.inl rfl)
  simpa using h

/-! ## Claim C6: draining a buffered source -/

/-- Claim C6: `process_event` delivers every buffered event of the source to
its handler in arrival order and returns exactly when a read reports
`WouldBlock`; a read error other than `WouldBlock` aborts the process. -/
theorem claim6_drain (evs : List Event) (rest : List ReadResult) :
    process_event (evs.map ReadResult.ok ++ ReadResult.wouldBlock :: rest) =
      some (evs, rest) ∧
    process_event (evs.map ReadResult.ok ++ ReadResult.err :: rest) = none := by
  induction evs with
  | nil => exact ⟨rfl, rfl⟩
  | cons e es ih => simp [process_event, ih.1, ih.2]

/-! ## Claim C8: wheel events become complete taps -/

/-- Claim C8: a vertical-wheel event of value `+1` produces exactly one tap
of PageUp and `-1` exactly one tap of PageDown, a tap being exactly four
writes — press, sync-report, release, sync-report; a run of same-valued
wheel events produces one complete 4-event tap per event. -/
theorem claim8_wheel_taps (t : Nat) (ts : List Nat) :
    mouseStep ⟨t, EventCode.rel REL_WHEEL, 1⟩ = inject_btn t KEY_PAGEUP ∧
    mouseStep ⟨t, EventCode.rel REL_WHEEL, -1⟩ = inject_btn t KEY_PAGEDOWN ∧
    inject_btn t KEY_PAGEUP =
      [⟨t, EventCode.key KEY_PAGEUP, 1⟩, ⟨t, EventCode.syn SYN_REPORT, 0⟩,
       ⟨t, EventCode.key KEY_PAGEUP, 0⟩, ⟨t, EventCode.syn SYN_REPORT, 0⟩] ∧
    inject_btn t KEY_PAGEDOWN =
      [⟨t, EventCode.key KEY_PAGEDOWN, 1⟩, ⟨t, EventCode.syn SYN_REPORT, 0⟩,
       ⟨t, EventCode.key KEY_PAGEDOWN, 0⟩, ⟨t, EventCode.syn SYN_REPORT, 0⟩] ∧
    mouseRun (ts.map fun u => ⟨u, EventCode.rel REL_WHEEL, 1⟩) =
      taps KEY_PAGEUP ts ∧
    mouseRun (ts.map fun u => ⟨u, EventCode.rel REL_WHEEL, -1⟩) =
      taps KEY_PAGEDOWN ts ∧
    (taps KEY_PAGEUP ts).length = 4 * ts.length := by
  refine ⟨rfl, rfl, rfl, rfl, ?_, ?_, ?_⟩
  · induction ts with
    | nil => rfl
    | cons u us ih => simp [mouseRun, taps, mouseStep, ih]
  · induction ts with
    | nil => rfl
    | cons u us ih => simp [mouseRun, taps, mouseStep, ih]
  · induction ts with
    | nil => rfl
    | cons u us ih =>
      simp [taps, inject_btn, ih, List.length_append, Nat.mul_succ]

/-! ## Claim C10: every other mouse event is dropped -/

/-- Claim C10: a mouse event that is not a vertical-wheel event of value
exactly `1` or exactly `-1` produces no output and no state change. -/
theorem claim10_mouse_drop (s : State) (e : Event)
    (h : ¬ (e.code = EventCode.rel REL_WHEEL ∧ (e.value = 1 ∨ e.value = -1))) :
    loopStep s Source.mouse e = (s, []) := by
  rcases e with ⟨t, c, v⟩
  cases c with
  | rel r =>
    simp only [loopStep, mouseStep]
    split_ifs with h1 h2
    · exact absurd ⟨by rw [h1.1], Or.inl h1.2⟩ h
    · exact absurd ⟨by rw [h2.1], Or.inr h2.2⟩ h
    · rfl
  | key k => rfl
  | syn c => rfl
  | msc c => rfl

/-- Witness for C10: a fast-scroll wheel event of magnitude 2 is dropped. -/
theorem claim10_mouse_drop_witness :
    loopStep initState Source.mouse ⟨0, EventCode.rel REL_WHEEL, 2⟩ =
      (initState, []) :=
  claim10_mouse_drop initState ⟨0, EventCode.rel REL_WHEEL, 2⟩ (by decide)

/-! ## Claim C7: device-role identification -/

/-- Claim C7: a mouse-button or relative-motion event claims the mouse role
when it is free; otherwise a key-class release (value 0) claims the keyboard
role when it is free; a key-class press (value 1 or 2) of a non-button key
classifies nothing; filled roles are never changed; the identification loop
returns exactly at the first batch boundary where both roles are filled. -/
theorem claim7_role_identification (id : Nat) (e : Event) :
    (∀ kb : Option Nat,
      ((∃ k, e.code = EventCode.key k ∧
          (k = BTN_LEFT ∨ k = BTN_RIGHT ∨ k = BTN_MIDDLE ∨ k = BTN_EXTRA ∨
           k = BTN_SIDE)) ∨ (∃ r, e.code = EventCode.rel r)) →
      identStep (kb, none) (id, e) = (kb, some id)) ∧
    (∀ mo : Option Nat, ∀ k, e.code = EventCode.key k →
      ¬ (k = BTN_LEFT ∨ k = BTN_RIGHT ∨ k = BTN_MIDDLE ∨ k = BTN_EXTRA ∨
         k = BTN_SIDE) →
      e.value = 0 → identStep (none, mo) (id, e) = (some id, mo)) ∧
    (∀ st : Option Nat × Option Nat, ∀ k, e.code = EventCode.key k →
      ¬ (k = BTN_LEFT ∨ k = BTN_RIGHT ∨ k = BTN_MIDDLE ∨ k = BTN_EXTRA ∨
         k = BTN_SIDE) →
      (e.value = 1 ∨ e.value = 2) → identStep st (id, e) = st) ∧
    (∀ st : Option Nat × Option Nat, ∀ j, st.1 = some j →
      (identStep st (id, e)).1 = some j) ∧
    (∀ st : Option Nat × Option Nat, ∀ j, st.2 = some j →
      (identStep st (id, e)).2 = some j) ∧
    (∀ st b bs kid mid, identBatch st b = (some kid, some mid) →
      identLoop st (b :: bs) = some (kid, mid)) ∧
    (∀ st b bs, ((identBatch st b).1 = none ∨ (identBatch st b).2 = none) →
      identLoop st (b :: bs) = identLoop (identBatch st b) bs) := by
  refine ⟨?_, ?_, ?_, ?_, ?_, ?_, ?_⟩
  · rintro kb h
    rcases h with ⟨k, hc, hbtn⟩ | ⟨r, hc⟩
    · simp [identStep, hc, hbtn]
    · simp [identStep, hc]
  · intro mo k hc hbtn hv
    simp [identStep, hc, hbtn, hv]
  · intro st k hc hbtn hv
    have hv0 : ¬ (e.value = 0) := by rcases hv with h | h <;> simp [h]
    simp [identStep, hc, hbtn, hv0]
  · intro st j hj
    rcases e with ⟨t, c, v⟩
    cases c with
    | key k =>
      simp only [identStep]
      split_ifs <;> simp_all
    | rel r => simp [identStep, hj]
    | syn r => exact hj
    | msc r => exact hj
  · intro st j hj
    rcases e with ⟨t, c, v⟩
    cases c with
    | key k =>
      simp only [identStep]
      split_ifs <;> simp_all
    | rel r => simp [identStep, hj]
    | syn r => exact hj
    | msc r => exact hj
  · intro st b bs kid mid h
    simp [identLoop, h]
  · intro st b bs h
    rcases hb : identBatch st b with ⟨kq, mq⟩
    rw [hb] at h
    simp only at h
    rcases h with h | h
    · subst h
      simp [identLoop, hb]
    · subst h
      cases kq <;> simp [identLoop, hb]

/-- Witness for C7: a wheel event claims the free mouse role; a key release
claims the free keyboard role; a key press classifies nothing. -/
theorem claim7_role_identification_witness :
    identStep (some 3, none) (5, ⟨0, EventCode.rel 8, 1⟩) = (some 3, some 5) ∧
    identStep (none, some 5) (3, ⟨1, EventCode.key 30, 0⟩) = (some 3, some 5) ∧
    identStep (none, none) (7, ⟨2, EventCode.key 30, 1⟩) = (none, none) :=
  ⟨(claim7_role_identification 5 ⟨0, EventCode.rel 8, 1⟩).1 (some 3)
      (Or.inr ⟨8, rfl⟩),
   (claim7_role_identification 3 ⟨1, EventCode.key 30, 0⟩).2.1 (some 5) 30 rfl
      (by decide) rfl,
   (claim7_role_identification 7 ⟨2, EventCode.key 30, 1⟩).2.2.1 (none, none) 30
      rfl (by decide) (Or.inl rfl)⟩

/-! ## Claim C1: the layer release emits the captured key -/

theorem keebStep_nonlayer_current (s : State) (t : Nat) (k : Nat) (v : Int)
    (hk : k ≠ KEY_GRAVE) :
    (keebStep s ⟨t, EventCode.key k, v⟩).1.current_key = s.current_key := by
  cases hm : keymap k with
  | none => simp [keebStep, hk, hm]
  | some m =>
    rcases Decidable.em (v = 0) with h0 | h0 <;>
      simp [keebStep, hk, hm, h0] <;> split_ifs <;> rfl

theorem runKeeb_nonlayer_current (mid : List Event) :
    ∀ s : State, (∀ e ∈ mid, ∃ k, e.code = EventCode.key k ∧ k ≠ KEY_GRAVE) →
    (runKeeb s mid).1.current_key = s.current_key := by
  induction mid with
  | nil => intro s _; rfl
  | cons e rest ih =>
    intro s h
    obtain ⟨k, hc, hk⟩ := h e (List.mem_cons_self e rest)
    have hrest := ih (keebStep s e).1 fun e' he' => h e' (List.mem_cons_of_mem e he')
    have : (runKeeb s (e :: rest)).1 = (runKeeb (keebStep s e).1 rest).1 := by
      simp [runKeeb]
    rw [this, hrest]
    rcases e with ⟨t, c, v⟩
    cases hc
    exact keebStep_nonlayer_current s t k v hk

/-- Claim C1: a layer-key press captures `next_key` into `current_key`; any
intervening non-layer key events leave `current_key` untouched (presses of
remappable keys update `next_key` instead); the layer-key release then emits
exactly one release event carrying the key captured at layer-press time and
clears `current_key`. -/
theorem claim1_late_binding_release (s : State) (t u : Nat) (v : Int)
    (mid : List Event) (hv : v = 1 ∨ v = 2)
    (hmid : ∀ e ∈ mid, ∃ k, e.code = EventCode.key k ∧ k ≠ KEY_GRAVE) :
    ((keebStep s ⟨t, EventCode.key KEY_GRAVE, v⟩).1.current_key
        = some s.next_key) ∧
    ((runKeeb (keebStep s ⟨t, EventCode.key KEY_GRAVE, v⟩).1 mid).1.current_key
        = some s.next_key) ∧
    (keebStep (runKeeb (keebStep s ⟨t, EventCode.key KEY_GRAVE, v⟩).1 mid).1
        ⟨u, EventCode.key KEY_GRAVE, 0⟩ =
      ({ (runKeeb (keebStep s ⟨t, EventCode.key KEY_GRAVE, v⟩).1 mid).1 with
          current_key := none },
       [⟨u, EventCode.key s.next_key, 0⟩])) ∧
    (∀ s' : State, ∀ u' k : Nat, ∀ v' : Int, ∀ m : Nat,
      k ≠ KEY_GRAVE → keymap k = some m → v' ≠ 0 →
      (keebStep s' ⟨u', EventCode.key k, v'⟩).1.next_key = m ∧
      (keebStep s' ⟨u', EventCode.key k, v'⟩).1.current_key
        = s'.current_key) ∧
    (∀ s' : State, ∀ u' k : Nat, ∀ v' : Int, k ≠ KEY_GRAVE →
      (keebStep s' ⟨u', EventCode.key k, v'⟩).1.current_key
        = s'.current_key) := by
  have hv0 : ¬ ((v : Int) = 0) := by rcases hv with h | h <;> simp [h]
  have h1 : (keebStep s ⟨t, EventCode.key KEY_GRAVE, v⟩).1.current_key
      = some s.next_key := by simp [keebStep, hv0]
  have h2 : (runKeeb (keebStep s ⟨t, EventCode.key KEY_GRAVE, v⟩).1 mid).1.current_key
      = some s.next_key := by
    rw [runKeeb_nonlayer_current mid _ hmid, h1]
  refine ⟨h1, h2, ?_, ?_, ?_⟩
  · generalize hgen :
      (runKeeb (keebStep s ⟨t, EventCode.key KEY_GRAVE, v⟩).1 mid).1 = s2 at h2 ⊢
    simp [keebStep, h2]
  · intro s' u' k v' m hk hm hv'
    refine ⟨?_, keebStep_nonlayer_current s' u' k v' hk⟩
    simp [keebStep, hk, hm, hv']
  · intro s' u' k v' hk
    exact keebStep_nonlayer_current s' u' k v' hk

/-- Witness for C1: capture key 30, press key 48 in between, release. -/
theorem claim1_late_binding_release_witness :
    (keebStep (runKeeb (keebStep
        { current_key := none, next_key := 30, held := false }
        ⟨0, EventCode.key KEY_GRAVE, 1⟩).1
        [⟨1, EventCode.key 48, 1⟩]).1 ⟨2, EventCode.key KEY_GRAVE, 0⟩).2 =
      [⟨2, EventCode.key 30, 0⟩] := by
  have h := (claim1_late_binding_release
      { current_key := none, next_key := 30, held := false } 0 2 1
      [⟨1, EventCode.key 48, 1⟩] (Or.inl rfl)
      (by intro e he; simp at he; exact ⟨48, by simp [he], by decide⟩)).2.2.1
  rw [h]

/-! ## Claim C5: modifier keys pass through untouched -/

theorem keymap_of_mod {k : Nat} (h : isMod k = true) : keymap k = none := by
  unfold isMod at h
  cases hk : keymap k with
  | none => rfl
  | some m => rw [hk] at h; simp [Option.isNone] at h

theorem mod_ne_of_not_mod {a b : Nat} (ha : isMod a = true) (hb : isMod b = false) :
    b ≠ a := by
  rintro rfl
  rw [ha] at hb
  exact absurd hb (by simp)

theorem pressTarget_not_mod {e : Event} {k : Nat} (h : pressTarget e = some k) :
    isMod k = false := by
  rcases e with ⟨t, c, v⟩
  cases c with
  | key k0 =>
    unfold pressTarget at h
    simp only at h
    split_ifs at h with hcond
    obtain rfl : k0 = k := by injection h
    exact hcond.2.1
  | rel r => cases h
  | syn r => cases h
  | msc r => cases h

theorem keebStep_next_key (s : State) (e : Event) :
    (keebStep s e).1.next_key = (pressTarget e).getD s.next_key := by
  rcases e with ⟨t, c, v⟩
  cases c with
  | key k =>
    rcases Decidable.em (k = KEY_GRAVE) with hg | hg
    · subst hg
      rcases Decidable.em ((v : Int) = 0) with h0 | h0
      · cases hcur : s.current_key with
        | none => simp [keebStep, pressTarget, h0, hcur]
        | some ck => simp [keebStep, pressTarget, h0, hcur]
      · simp [keebStep, pressTarget, h0]
    · cases hm : keymap k with
      | none =>
        have hmod : isMod k = true := by unfold isMod; rw [hm]; rfl
        rcases Decidable.em ((v : Int) = 0) with h0 | h0 <;>
          simp [keebStep, pressTarget, hg, hm, h0, hmod]
      | some m =>
        have hmod : isMod k = false := isMod_false_of_keymap_some hm
        have hmm : m = k := keymap_some_eq hm
        rcases Decidable.em ((v : Int) = 0) with h0 | h0
        · simp only [keebStep, hg, if_neg hg, hm, h0, if_pos]
          simp [pressTarget, h0]
          split_ifs <;> rfl
        · simp [keebStep, pressTarget, hg, hm, h0, hmod, hmm]
  | rel r => rfl
  | syn r => rfl
  | msc r => rfl

theorem keebStep_current_cases (s : State) (e : Event) :
    (keebStep s e).1.current_key = none ∨
    (keebStep s e).1.current_key = s.current_key ∨
    (keebStep s e).1.current_key = some s.next_key := by
  rcases e with ⟨t, c, v⟩
  cases c with
  | key k =>
    rcases Decidable.em (k = KEY_GRAVE) with hg | hg
    · subst hg
      rcases Decidable.em ((v : Int) = 0) with h0 | h0
      · cases hcur : s.current_key with
        | none => right; left; simp [keebStep, h0, hcur]
        | some ck => left; simp [keebStep, h0, hcur]
      · right; right; simp [keebStep, h0]
    · right; left; exact keebStep_nonlayer_current s t k v hg
  | rel r => right; left; rfl
  | syn r => right; left; rfl
  | msc r => right; left; rfl

theorem stateOk_keebStep (s : State) (e : Event) (hs : stateOk s) :
    stateOk (keebStep s e).1 := by
  obtain ⟨hn, hc⟩ := hs
  constructor
  · rw [keebStep_next_key]
    cases hp : pressTarget e with
    | none => simpa using hn
    | some k => simpa using pressTarget_not_mod hp
  · intro c hcc
    rcases keebStep_current_cases s e with h | h | h
    · rw [h] at hcc; cases hcc
    · rw [h] at hcc; exact hc c hcc
    · rw [h] at hcc
      obtain rfl : s.next_key = c := by injection hcc
      exact hn

theorem filterKey_keebStep (k : Nat) (hk : isMod k = true) (s : State)
    (e : Event) (hs : stateOk s) :
    filterKey k (keebStep s e).2 = filterKey k [e] := by
  obtain ⟨hn, hc⟩ := hs
  rcases e with ⟨t, c, v⟩
  cases c with
  | key k0 =>
    rcases Decidable.em (k0 = KEY_GRAVE) with hg | hg
    · subst hg
      rcases Decidable.em ((v : Int) = 0) with h0 | h0
      · cases hcur : s.current_key with
        | none => simp [keebStep, h0, hcur]
        | some ck =>
          have hck : ck ≠ k := mod_ne_of_not_mod hk (hc ck hcur)
          have hgk : KEY_GRAVE ≠ k := mod_ne_of_not_mod hk isMod_grave
          simp [keebStep, h0, hcur, filterKey, hck, hgk]
      · have hnk : s.next_key ≠ k := mod_ne_of_not_mod hk hn
        have hgk : KEY_GRAVE ≠ k := mod_ne_of_not_mod hk isMod_grave
        rcases Decidable.em ((v : Int) = 1 ∧ s.held = true) with h1 | h1 <;>
          simp [keebStep, h0, h1, filterKey, hnk, hgk]
    · cases hm : keymap k0 with
      | none => simp [keebStep, hg, hm]
      | some m =>
        have hmm : m = k0 := keymap_some_eq hm
        have hk0 : k0 ≠ k :=
          mod_ne_of_not_mod hk (isMod_false_of_keymap_some hm)
        rcases Decidable.em ((v : Int) = 0) with h0 | h0
        · simp [keebStep, hg, hm, h0, filterKey, hk0]
        · rcases Decidable.em (s.current_key = some m) with h1 | h1 <;>
            simp [keebStep, hg, hm, h0, h1, filterKey, hk0]
  | rel r => rfl
  | syn r => rfl
  | msc r => rfl

theorem filterKey_append (k : Nat) (l l' : List Event) :
    filterKey k (l ++ l') = filterKey k l ++ filterKey k l' := by
  simp [filterKey, List.filter_append]

theorem filterKey_runKeeb (k : Nat) (hk : isMod k = true) (evs : List Event) :
    ∀ s : State, stateOk s →
      filterKey k (runKeeb s evs).2 = filterKey k evs := by
  induction evs with
  | nil => intro s _; rfl
  | cons e rest ih =>
    intro s hs
    have hsplit : (runKeeb s (e :: rest)).2 =
        (keebStep s e).2 ++ (runKeeb (keebStep s e).1 rest).2 := by
      simp [runKeeb]
    rw [hsplit, filterKey_append, filterKey_keebStep k hk s e hs,
        ih (keebStep s e).1 (stateOk_keebStep s e hs)]
    show filterKey k [e] ++ filterKey k rest = filterKey k (e :: rest)
    simp only [filterKey, List.filter_cons, List.filter_nil]
    split_ifs <;> simp

/-- Claim C5: for a key `k` the keymap maps to `None` (the modifier keys),
the subsequence of output events carrying code `k` equals the subsequence of
input events carrying code `k`, event for event, and processing an event for
`k` leaves every field of the state unchanged.  `stateOk` (no modifier ever
named by `next_key`/`current_key`) holds initially and is preserved, so the
statement covers every reachable state. -/
theorem claim5_modifier_passthrough (k : Nat) (hk : isMod k = true) :
    stateOk initState ∧
    (∀ s e, stateOk s → stateOk (keebStep s e).1) ∧
    (∀ (s : State) (evs : List Event), stateOk s →
      filterKey k (runKeeb s evs).2 = filterKey k evs) ∧
    (∀ (s : State) (t : Nat) (v : Int),
      keebStep s ⟨t, EventCode.key k, v⟩ = (s, [⟨t, EventCode.key k, v⟩])) := by
  refine ⟨⟨by decide, by intro c h; cases h⟩, stateOk_keebStep,
    fun s evs hs => filterKey_runKeeb k hk evs s hs, ?_⟩
  intro s t v
  have hg : k ≠ KEY_GRAVE := fun h =>
    absurd (h ▸ hk) (by rw [isMod_grave]; simp)
  have hm : keymap k = none := keymap_of_mod hk
  rcases Decidable.em ((v : Int) = 0) with h0 | h0 <;> simp [keebStep, hg, hm, h0]

/-- Witness for C5: left-ctrl events pass through a concrete mixed input. -/
theorem claim5_modifier_passthrough_witness :
    filterKey KEY_LEFTCTRL (runKeeb initState
      [⟨0, EventCode.key KEY_LEFTCTRL, 1⟩, ⟨1, EventCode.key 30, 1⟩,
       ⟨2, EventCode.key KEY_LEFTCTRL, 0⟩]).2 =
      filterKey KEY_LEFTCTRL
        [⟨0, EventCode.key KEY_LEFTCTRL, 1⟩, ⟨1, EventCode.key 30, 1⟩,
         ⟨2, EventCode.key KEY_LEFTCTRL, 0⟩] ∧
    keebStep initState ⟨0, EventCode.key KEY_LEFTCTRL, 1⟩ =
      (initState, [⟨0, EventCode.key KEY_LEFTCTRL, 1⟩]) :=
  ⟨(claim5_modifier_passthrough KEY_LEFTCTRL (by decide)).2.2.1 initState _
      ⟨by decide, by intro c h; cases h⟩,
   (claim5_modifier_passthrough KEY_LEFTCTRL (by decide)).2.2.2 initState 0 1⟩

/-! ## Claim C9: the keymap is the identity off the modifiers (corrected) -/

/-- Counterexample to C9 as stated: after pressing key 30 and then the layer
key, the most recently pressed non-modifier key is the layer key itself
(`keymap` does not map it to `None`), yet `next_key` is still 30 — layer-key
presses bypass the keymap lookup and never touch `next_key`. -/
theorem claim9_counterexample :
    lastNonModPress c9bad = some KEY_GRAVE ∧
    (runKeeb initState c9bad).1.next_key = 30 ∧
    (30 : Nat) ≠ KEY_GRAVE := by decide

theorem lastRemapPress_cons (e : Event) (rest : List Event) :
    lastRemapPress (e :: rest) =
      match lastRemapPress rest with
      | some k => some k
      | none => pressTarget e := rfl

theorem runKeeb_next_key (evs : List Event) :
    ∀ s : State, (runKeeb s evs).1.next_key =
      (lastRemapPress evs).getD s.next_key := by
  induction evs with
  | nil => intro s; rfl
  | cons e rest ih =>
    intro s
    have hsplit : (runKeeb s (e :: rest)).1 = (runKeeb (keebStep s e).1 rest).1 := by
      simp [runKeeb]
    rw [hsplit, ih (keebStep s e).1, keebStep_next_key s e, lastRemapPress_cons]
    cases hl : lastRemapPress rest with
    | none => rfl
    | some k => rfl

/-- Claim C9, amended: `keymap` returns `None` exactly on the eight modifier
keys and is the identity elsewhere; `next_key` always equals the key code of
the most recently pressed-or-repeated non-modifier key *other than the layer
key* (layer-key presses bypass the keymap and never update `next_key`), or
keeps its previous value if there is none; the synthetic collision release
emitted on a direct press, which reuses the raw event's own key code,
coincides with a release of `mapped`. -/
theorem claim9_keymap_identity :
    (∀ k, keymap k = none ↔
      (k = KEY_LEFTCTRL ∨ k = KEY_RIGHTCTRL ∨ k = KEY_LEFTSHIFT ∨
       k = KEY_RIGHTSHIFT ∨ k = KEY_LEFTALT ∨ k = KEY_RIGHTALT ∨
       k = KEY_LEFTMETA ∨ k = KEY_RIGHTMETA)) ∧
    (∀ k m, keymap k = some m → m = k) ∧
    (∀ (s : State) (evs : List Event),
      (runKeeb s evs).1.next_key = (lastRemapPress evs).getD s.next_key) ∧
    (∀ (s : State) (t : Nat) (k : Nat) (v : Int) (m : Nat),
      k ≠ KEY_GRAVE → keymap k = some m → v ≠ 0 → s.current_key = some m →
      (keebStep s ⟨t, EventCode.key k, v⟩).2 =
        [⟨t, EventCode.key m, 0⟩, ⟨t, EventCode.key k, v⟩]) := by
  refine ⟨?_, fun k m h => keymap_some_eq h, fun s evs => runKeeb_next_key evs s, ?_⟩
  · intro k
    unfold keymap
    split_ifs with h
    · simp [h]
    · simpa using h
  · intro s t k v m hk hm hv hcur
    have hmm : m = k := keymap_some_eq hm
    subst hmm
    simp [keebStep, hk, hm, hv, hcur]

/-- Witness for C9: the tracking equation on `c9bad` and a concrete
collision release. -/
theorem claim9_keymap_identity_witness :
    (runKeeb initState c9bad).1.next_key =
      (lastRemapPress c9bad).getD initState.next_key ∧
    (keebStep { current_key := some 30, next_key := 48, held := false }
        ⟨5, EventCode.key 30, 2⟩).2 =
      [⟨5, EventCode.key 30, 0⟩, ⟨5, EventCode.key 30, 2⟩] :=
  ⟨claim9_keymap_identity.2.2.1 initState c9bad,
   claim9_keymap_identity.2.2.2 _ 5 30 2 30 (by decide) (by decide) (by decide)
     rfl⟩

/-! ## Claim C4: no duplicate press (corrected) -/

theorem updMap_self (D : Nat → Bool) (k : Nat) (b : Bool) : updMap D k b k = b := by
  simp [updMap]

theorem updMap_ne (D : Nat → Bool) (k : Nat) (b : Bool) {j : Nat} (h : j ≠ k) :
    updMap D k b j = D j := by
  simp [updMap, h]

theorem stepDown_key (D : Nat → Bool) (t : Nat) (k : Nat) (v : Int) :
    stepDown D ⟨t, EventCode.key k, v⟩ =
      if v = 1 then updMap D k true
      else if v = 0 then updMap D k false
      else D := rfl

theorem okPhys_key {phys : Nat → Bool} {t : Nat} {k : Nat} {v : Int}
    (h : okPhys phys ⟨t, EventCode.key k, v⟩ = true) :
    (v = 1 ∧ phys k = false) ∨ (v = 0 ∧ phys k = true) ∨
    (v = 2 ∧ phys k = true) := by
  unfold okPhys at h
  simp only at h
  split_ifs at h with h1 h2 h3
  · exact Or.inl ⟨h1, by simpa using h⟩
  · exact Or.inr (Or.inl ⟨h2, h⟩)
  · exact Or.inr (Or.inr ⟨h3, h⟩)

theorem noDup_append (xs : List Event) :
    ∀ (D : Nat → Bool) (ys : List Event),
      noDup D (xs ++ ys) =
        (noDup D xs && noDup (List.foldl stepDown D xs) ys) := by
  induction xs with
  | nil => intro D ys; simp [noDup]
  | cons x xs ih =>
    intro D ys
    show (okEv D x && noDup (stepDown D x) (xs ++ ys)) =
      (noDup D (x :: xs) && noDup (List.foldl stepDown D (x :: xs)) ys)
    rw [ih]
    simp only [noDup, List.foldl_cons, Bool.and_assoc]

theorem Inv_init : Inv initState noKeys noKeys := by
  refine ⟨?_, ?_, ?_, ?_, ?_, ?_, ?_⟩ <;>
    first
    | decide
    | simp [initState, noKeys, isMod, keymap]

theorem preserve_grave_release (s : State) (phys D : Nat → Bool) (t : Nat)
    (hInv : Inv s phys D) (hp : phys KEY_GRAVE = true) :
    noDup D (keebStep s ⟨t, EventCode.key KEY_GRAVE, 0⟩).2 = true ∧
    Inv (keebStep s ⟨t, EventCode.key KEY_GRAVE, 0⟩).1
      (stepDown phys ⟨t, EventCode.key KEY_GRAVE, 0⟩)
      (List.foldl stepDown D (keebStep s ⟨t, EventCode.key KEY_GRAVE, 0⟩).2) := by
  obtain ⟨i7, i8, i5, i1, i9, i10, i11⟩ := hInv
  obtain ⟨ck, hck⟩ : ∃ ck, s.current_key = some ck := by
    cases hc : s.current_key with
    | none => exact absurd hc (i7.mp hp)
    | some ck => exact ⟨ck, rfl⟩
  have hckmod : isMod ck = false := i11 ck hck
  have hstep : keebStep s ⟨t, EventCode.key KEY_GRAVE, 0⟩ =
      ({ s with current_key := none }, [⟨t, EventCode.key ck, 0⟩]) := by
    simp [keebStep, hck]
  rw [hstep]
  refine ⟨by simp [noDup, okEv], ?_⟩
  have hD' : List.foldl stepDown D [(⟨t, EventCode.key ck, 0⟩ : Event)] =
      updMap D ck false := by
    simp [List.foldl, stepDown_key]
  have hphys' : stepDown phys ⟨t, EventCode.key KEY_GRAVE, 0⟩ =
      updMap phys KEY_GRAVE false := by simp [stepDown_key]
  rw [hD', hphys']
  refine ⟨?_, ?_, ?_, ?_, ?_, i10, ?_⟩
  · simp [updMap_self]
  · intro hDG
    by_cases hcg : KEY_GRAVE = ck
    · rw [hcg, updMap_self] at hDG; cases hDG
    · rw [updMap_ne D ck false hcg] at hDG
      have h2 := i8 hDG
      rw [hck] at h2
      injection h2 with h3
      exact absurd h3.symm hcg
  · intro j hjmod hjg hDj
    by_cases hjc : j = ck
    · rw [hjc, updMap_self] at hDj; cases hDj
    · rw [updMap_ne D ck false hjc] at hDj
      rcases i5 j hjmod hjg hDj with h | h
      · left; rw [updMap_ne phys KEY_GRAVE false hjg]; exact h
      · rw [hck] at h; injection h with h2; exact absurd h2.symm hjc
  · intro hheld
    left
    show updMap D ck false s.next_key = false
    by_cases hnc : s.next_key = ck
    · rw [hnc, updMap_self]
    · rw [updMap_ne D ck false hnc]
      rcases i1 hheld with h | h
      · exact h
      · rw [hck] at h; injection h with h2; exact absurd h2.symm hnc
  · intro m hm
    have hmc : m ≠ ck := fun h => by rw [h, hckmod] at hm; cases hm
    have hmg : m ≠ KEY_GRAVE := fun h => by rw [h, isMod_grave] at hm; cases hm
    rw [updMap_ne D ck false hmc, updMap_ne phys KEY_GRAVE false hmg]
    exact i9 m hm
  · intro c hcc
    cases hcc

theorem preserve_grave_press (s : State) (phys D : Nat → Bool) (t : Nat)
    (hInv : Inv s phys D) (hp : phys KEY_GRAVE = false) :
    noDup D (keebStep s ⟨t, EventCode.key KEY_GRAVE, 1⟩).2 = true ∧
    Inv (keebStep s ⟨t, EventCode.key KEY_GRAVE, 1⟩).1
      (stepDown phys ⟨t, EventCode.key KEY_GRAVE, 1⟩)
      (List.foldl stepDown D (keebStep s ⟨t, EventCode.key KEY_GRAVE, 1⟩).2) := by
  obtain ⟨i7, i8, i5, i1, i9, i10, i11⟩ := hInv
  have hcur : s.current_key = none := by
    cases hc : s.current_key with
    | none => rfl
    | some ck =>
      have h2 : phys KEY_GRAVE = true := i7.mpr (by simp [hc])
      rw [hp] at h2; cases h2
  have hphys' : stepDown phys ⟨t, EventCode.key KEY_GRAVE, 1⟩ =
      updMap phys KEY_GRAVE true := by simp [stepDown_key]
  have hnextmod : ∀ m, isMod m = true → m ≠ s.next_key := fun m hm =>
    (mod_ne_of_not_mod hm i10).symm
  cases hheld : s.held with
  | true =>
    have hstep : keebStep s ⟨t, EventCode.key KEY_GRAVE, 1⟩ =
        ({ s with current_key := some s.next_key },
         [⟨t, EventCode.key s.next_key, 0⟩, ⟨t, EventCode.key s.next_key, 1⟩]) := by
      simp [keebStep, hheld]
    rw [hstep, hphys']
    have hD' : List.foldl stepDown D
        [(⟨t, EventCode.key s.next_key, 0⟩ : Event),
         ⟨t, EventCode.key s.next_key, 1⟩] =
        updMap (updMap D s.next_key false) s.next_key true := by
      simp [List.foldl, stepDown_key]
    rw [hD']
    refine ⟨by simp [noDup, okEv, stepDown_key, updMap_self], ?_, ?_, ?_, ?_, ?_,
      i10, ?_⟩
    · simp [updMap_self]
    · intro hDG
      by_cases hgn : KEY_GRAVE = s.next_key
      · rw [← hgn]
      · rw [updMap_ne _ _ _ hgn, updMap_ne _ _ _ hgn] at hDG
        have h2 := i8 hDG
        rw [hcur] at h2
        cases h2
    · intro j hjmod hjg hDj
      by_cases hjn : j = s.next_key
      · exact Or.inr (by rw [hjn])
      · rw [updMap_ne _ _ _ hjn, updMap_ne _ _ _ hjn] at hDj
        rcases i5 j hjmod hjg hDj with h | h
        · left; rw [updMap_ne phys KEY_GRAVE true hjg]; exact h
        · rw [hcur] at h; cases h
    · intro h
      have h2 : s.held = false := h
      rw [hheld] at h2
      cases h2
    · intro m hm
      have hmn : m ≠ s.next_key := hnextmod m hm
      have hmg : m ≠ KEY_GRAVE := fun hmg => by rw [hmg, isMod_grave] at hm; cases hm
      rw [updMap_ne _ _ _ hmn, updMap_ne _ _ _ hmn,
        updMap_ne phys KEY_GRAVE true hmg]
      exact i9 m hm
    · intro c hcc
      injection hcc with h2
      rw [← h2]
      exact i10
  | false =>
    have hDnext : D s.next_key = false := by
      rcases i1 hheld with h | h
      · exact h
      · rw [hcur] at h; cases h
    have hstep : keebStep s ⟨t, EventCode.key KEY_GRAVE, 1⟩ =
        ({ s with current_key := some s.next_key },
         [⟨t, EventCode.key s.next_key, 1⟩]) := by
      simp [keebStep, hheld]
    rw [hstep, hphys']
    have hD' : List.foldl stepDown D [(⟨t, EventCode.key s.next_key, 1⟩ : Event)] =
        updMap D s.next_key true := by
      simp [List.foldl, stepDown_key]
    rw [hD']
    refine ⟨by simp [noDup, okEv, hDnext], ?_, ?_, ?_, ?_, ?_, i10, ?_⟩
    · simp [updMap_self]
    · intro hDG
      by_cases hgn : KEY_GRAVE = s.next_key
      · rw [← hgn]
      · rw [updMap_ne _ _ _ hgn] at hDG
        have h2 := i8 hDG
        rw [hcur] at h2
        cases h2
    · intro j hjmod hjg hDj
      by_cases hjn : j = s.next_key
      · exact Or.inr (by rw [hjn])
      · rw [updMap_ne _ _ _ hjn] at hDj
        rcases i5 j hjmod hjg hDj with h | h
        · left; rw [updMap_ne phys KEY_GRAVE true hjg]; exact h
        · rw [hcur] at h; cases h
    · intro h
      exact Or.inr rfl
    · intro m hm
      have hmn : m ≠ s.next_key := hnextmod m hm
      have hmg : m ≠ KEY_GRAVE := fun hmg => by rw [hmg, isMod_grave] at hm; cases hm
      rw [updMap_ne _ _ _ hmn, updMap_ne phys KEY_GRAVE true hmg]
      exact i9 m hm
    · intro c hcc
      injection hcc with h2
      rw [← h2]
      exact i10

theorem preserve_mod_key (s : State) (phys D : Nat → Bool) (t : Nat) (k : Nat)
    (v : Int) (hInv : Inv s phys D) (hg : k ≠ KEY_GRAVE) (hm : keymap k = none)
    (hOk : okPhys phys ⟨t, EventCode.key k, v⟩ = true) :
    noDup D (keebStep s ⟨t, EventCode.key k, v⟩).2 = true ∧
    Inv (keebStep s ⟨t, EventCode.key k, v⟩).1
      (stepDown phys ⟨t, EventCode.key k, v⟩)
      (List.foldl stepDown D (keebStep s ⟨t, EventCode.key k, v⟩).2) := by
  obtain ⟨i7, i8, i5, i1, i9, i10, i11⟩ := hInv
  have hmod : isMod k = true := by unfold isMod; rw [hm]; rfl
  have hgk : KEY_GRAVE ≠ k := fun h => by rw [← h, isMod_grave] at hmod; cases hmod
  have hnk : s.next_key ≠ k := mod_ne_of_not_mod hmod i10
  have hstep : keebStep s ⟨t, EventCode.key k, v⟩ =
      (s, [⟨t, EventCode.key k, v⟩]) := by
    simp [keebStep, hg, hm]
  rw [hstep]
  have hDseq : ∀ b : Bool,
      Inv s (updMap phys k b) (updMap D k b) := by
    intro b
    refine ⟨?_, ?_, ?_, ?_, ?_, i10, i11⟩
    · rw [updMap_ne phys k b hgk]; exact i7
    · rw [updMap_ne D k b hgk]; exact i8
    · intro j hjmod hjg hDj
      have hjk : j ≠ k := mod_ne_of_not_mod hmod hjmod
      rw [updMap_ne D k b hjk] at hDj
      rcases i5 j hjmod hjg hDj with h | h
      · left; rw [updMap_ne phys k b hjk]; exact h
      · exact Or.inr h
    · intro hheld
      rcases i1 hheld with h | h
      · left; rw [updMap_ne D k b hnk]; exact h
      · exact Or.inr h
    · intro m hmm
      by_cases hmk : m = k
      · rw [hmk, updMap_self, updMap_self]
      · rw [updMap_ne D k b hmk, updMap_ne phys k b hmk]; exact i9 m hmm
  rcases okPhys_key hOk with ⟨hv, hp⟩ | ⟨hv, hp⟩ | ⟨hv, hp⟩ <;> subst hv
  · have hDk : D k = false := by rw [i9 k hmod]; exact hp
    refine ⟨by simp [noDup, okEv, hDk], ?_⟩
    have hD' : List.foldl stepDown D [(⟨t, EventCode.key k, 1⟩ : Event)] =
        updMap D k true := by simp [List.foldl, stepDown_key]
    have hphys' : stepDown phys ⟨t, EventCode.key k, 1⟩ = updMap phys k true := by
      simp [stepDown_key]
    rw [hD', hphys']
    exact hDseq true
  · refine ⟨by simp [noDup, okEv], ?_⟩
    have hD' : List.foldl stepDown D [(⟨t, EventCode.key k, 0⟩ : Event)] =
        updMap D k false := by simp [List.foldl, stepDown_key]
    have hphys' : stepDown phys ⟨t, EventCode.key k, 0⟩ = updMap phys k false := by
      simp [stepDown_key]
    rw [hD', hphys']
    exact hDseq false
  · refine ⟨by simp [noDup, okEv], ?_⟩
    have hD' : List.foldl stepDown D [(⟨t, EventCode.key k, 2⟩ : Event)] = D := by
      simp [List.foldl, stepDown_key]
    have hphys' : stepDown phys ⟨t, EventCode.key k, 2⟩ = phys := by
      simp [stepDown_key]
    rw [hD', hphys']
    exact ⟨i7, i8, i5, i1, i9, i10, i11⟩

theorem preserve_mapped_release (s : State) (phys D : Nat → Bool) (t : Nat)
    (k : Nat) (hInv : Inv s phys D) (hg : k ≠ KEY_GRAVE)
    (hm : keymap k = some k) (hp : phys k = true) :
    noDup D (keebStep s ⟨t, EventCode.key k, 0⟩).2 = true ∧
    Inv (keebStep s ⟨t, EventCode.key k, 0⟩).1
      (stepDown phys ⟨t, EventCode.key k, 0⟩)
      (List.foldl stepDown D (keebStep s ⟨t, EventCode.key k, 0⟩).2) := by
  obtain ⟨i7, i8, i5, i1, i9, i10, i11⟩ := hInv
  have hkmod : isMod k = false := isMod_false_of_keymap_some hm
  have hgk : KEY_GRAVE ≠ k := fun h => hg h.symm
  have hstep : keebStep s ⟨t, EventCode.key k, 0⟩ =
      ((if k = s.next_key then { s with held := false } else s),
       [⟨t, EventCode.key k, 0⟩]) := by
    simp [keebStep, hg, hm]
  rw [hstep]
  refine ⟨by simp [noDup, okEv], ?_⟩
  have hD' : List.foldl stepDown D [(⟨t, EventCode.key k, 0⟩ : Event)] =
      updMap D k false := by simp [List.foldl, stepDown_key]
  have hphys' : stepDown phys ⟨t, EventCode.key k, 0⟩ = updMap phys k false := by
    simp [stepDown_key]
  rw [hD', hphys']
  by_cases hkn : k = s.next_key
  · rw [if_pos hkn]
    refine ⟨?_, ?_, ?_, ?_, ?_, i10, i11⟩
    · rw [updMap_ne phys k false hgk]; exact i7
    · rw [updMap_ne D k false hgk]; exact i8
    · intro j hjmod hjg hDj
      by_cases hjk : j = k
      · rw [hjk, updMap_self] at hDj; cases hDj
      · rw [updMap_ne D k false hjk] at hDj
        rcases i5 j hjmod hjg hDj with h | h
        · left; rw [updMap_ne phys k false hjk]; exact h
        · exact Or.inr h
    · intro _
      left
      show updMap D k false s.next_key = false
      rw [← hkn, updMap_self]
    · intro m hmm
      have hmk : m ≠ k := (mod_ne_of_not_mod hmm hkmod).symm
      rw [updMap_ne D k false hmk, updMap_ne phys k false hmk]
      exact i9 m hmm
  · rw [if_neg hkn]
    refine ⟨?_, ?_, ?_, ?_, ?_, i10, i11⟩
    · rw [updMap_ne phys k false hgk]; exact i7
    · rw [updMap_ne D k false hgk]; exact i8
    · intro j hjmod hjg hDj
      by_cases hjk : j = k
      · rw [hjk, updMap_self] at hDj; cases hDj
      · rw [updMap_ne D k false hjk] at hDj
        rcases i5 j hjmod hjg hDj with h | h
        · left; rw [updMap_ne phys k false hjk]; exact h
        · exact Or.inr h
    · intro hheld
      have hnk : s.next_key ≠ k := fun h => hkn h.symm
      rcases i1 hheld with h | h
      · left; rw [updMap_ne D k false hnk]; exact h
      · exact Or.inr h
    · intro m hmm
      have hmk : m ≠ k := (mod_ne_of_not_mod hmm hkmod).symm
      rw [updMap_ne D k false hmk, updMap_ne phys k false hmk]
      exact i9 m hmm

theorem preserve_mapped_press (s : State) (phys D : Nat → Bool) (t : Nat)
    (k : Nat) (hInv : Inv s phys D) (hg : k ≠ KEY_GRAVE)
    (hm : keymap k = some k) (hp : phys k = false) :
    noDup D (keebStep s ⟨t, EventCode.key k, 1⟩).2 = true ∧
    Inv (keebStep s ⟨t, EventCode.key k, 1⟩).1
      (stepDown phys ⟨t, EventCode.key k, 1⟩)
      (List.foldl stepDown D (keebStep s ⟨t, EventCode.key k, 1⟩).2) := by
  obtain ⟨i7, i8, i5, i1, i9, i10, i11⟩ := hInv
  have hkmod : isMod k = false := isMod_false_of_keymap_some hm
  have hgk : KEY_GRAVE ≠ k := fun h => hg h.symm
  have hphys' : stepDown phys ⟨t, EventCode.key k, 1⟩ = updMap phys k true := by
    simp [stepDown_key]
  by_cases hcol : s.current_key = some k
  · have hstep : keebStep s ⟨t, EventCode.key k, 1⟩ =
        ({ s with next_key := k, held := true },
         [⟨t, EventCode.key k, 0⟩, ⟨t, EventCode.key k, 1⟩]) := by
      simp [keebStep, hg, hm, hcol]
    rw [hstep, hphys']
    have hD' : List.foldl stepDown D
        [(⟨t, EventCode.key k, 0⟩ : Event), ⟨t, EventCode.key k, 1⟩] =
        updMap (updMap D k false) k true := by
      simp [List.foldl, stepDown_key]
    rw [hD']
    refine ⟨by simp [noDup, okEv, stepDown_key, updMap_self], ?_, ?_, ?_, ?_, ?_,
      hkmod, i11⟩
    · rw [updMap_ne phys k true hgk]; exact i7
    · rw [updMap_ne _ _ _ hgk, updMap_ne _ _ _ hgk]; exact i8
    · intro j hjmod hjg hDj
      by_cases hjk : j = k
      · left; rw [hjk, updMap_self]
      · rw [updMap_ne _ _ _ hjk, updMap_ne _ _ _ hjk] at hDj
        rcases i5 j hjmod hjg hDj with h | h
        · left; rw [updMap_ne phys k true hjk]; exact h
        · exact Or.inr h
    · intro h
      simp at h
    · intro m hmm
      have hmk : m ≠ k := (mod_ne_of_not_mod hmm hkmod).symm
      rw [updMap_ne _ _ _ hmk, updMap_ne _ _ _ hmk, updMap_ne phys k true hmk]
      exact i9 m hmm
  · have hDk : D k = false := by
      cases hDk : D k with
      | false => rfl
      | true =>
        rcases i5 k hkmod hg hDk with h | h
        · rw [hp] at h; cases h
        · exact absurd h hcol
    have hstep : keebStep s ⟨t, EventCode.key k, 1⟩ =
        ({ s with next_key := k, held := true }, [⟨t, EventCode.key k, 1⟩]) := by
      simp [keebStep, hg, hm, hcol]
    rw [hstep, hphys']
    have hD' : List.foldl stepDown D [(⟨t, EventCode.key k, 1⟩ : Event)] =
        updMap D k true := by simp [List.foldl, stepDown_key]
    rw [hD']
    refine ⟨by simp [noDup, okEv, hDk], ?_, ?_, ?_, ?_, ?_, hkmod, i11⟩
    · rw [updMap_ne phys k true hgk]; exact i7
    · rw [updMap_ne D k true hgk]; exact i8
    · intro j hjmod hjg hDj
      by_cases hjk : j = k
      · left; rw [hjk, updMap_self]
      · rw [updMap_ne D k true hjk] at hDj
        rcases i5 j hjmod hjg hDj with h | h
        · left; rw [updMap_ne phys k true hjk]; exact h
        · exact Or.inr h
    · intro h
      simp at h
    · intro m hmm
      have hmk : m ≠ k := (mod_ne_of_not_mod hmm hkmod).symm
      rw [updMap_ne D k true hmk, updMap_ne phys k true hmk]
      exact i9 m hmm

theorem preserve_mapped_repeat (s : State) (phys D : Nat → Bool) (t : Nat)
    (k : Nat) (hInv : Inv s phys D) (hg : k ≠ KEY_GRAVE)
    (hm : keymap k = some k) (hp : phys k = true) :
    noDup D (keebStep s ⟨t, EventCode.key k, 2⟩).2 = true ∧
    Inv (keebStep s ⟨t, EventCode.key k, 2⟩).1
      (stepDown phys ⟨t, EventCode.key k, 2⟩)
      (List.foldl stepDown D (keebStep s ⟨t, EventCode.key k, 2⟩).2) := by
  obtain ⟨i7, i8, i5, i1, i9, i10, i11⟩ := hInv
  have hkmod : isMod k = false := isMod_false_of_keymap_some hm
  have hgk : KEY_GRAVE ≠ k := fun h => hg h.symm
  have hphys' : stepDown phys ⟨t, EventCode.key k, 2⟩ = phys := by
    simp [stepDown_key]
  by_cases hcol : s.current_key = some k
  · have hstep : keebStep s ⟨t, EventCode.key k, 2⟩ =
        ({ s with next_key := k, held := true },
         [⟨t, EventCode.key k, 0⟩, ⟨t, EventCode.key k, 2⟩]) := by
      simp [keebStep, hg, hm, hcol]
    rw [hstep, hphys']
    have hD' : List.foldl stepDown D
        [(⟨t, EventCode.key k, 0⟩ : Event), ⟨t, EventCode.key k, 2⟩] =
        updMap D k false := by
      simp [List.foldl, stepDown_key]
    rw [hD']
    refine ⟨by simp [noDup, okEv, stepDown_key], ?_, ?_, ?_, ?_, ?_, hkmod, i11⟩
    · exact i7
    · rw [updMap_ne D k false hgk]; exact i8
    · intro j hjmod hjg hDj
      by_cases hjk : j = k
      · rw [hjk, updMap_self] at hDj; cases hDj
      · rw [updMap_ne D k false hjk] at hDj
        rcases i5 j hjmod hjg hDj with h | h
        · exact Or.inl h
        · exact Or.inr h
    · intro h
      simp at h
    · intro m hmm
      have hmk : m ≠ k := (mod_ne_of_not_mod hmm hkmod).symm
      rw [updMap_ne D k false hmk]
      exact i9 m hmm
  · have hstep : keebStep s ⟨t, EventCode.key k, 2⟩ =
        ({ s with next_key := k, held := true }, [⟨t, EventCode.key k, 2⟩]) := by
      simp [keebStep, hg, hm, hcol]
    rw [hstep, hphys']
    have hD' : List.foldl stepDown D [(⟨t, EventCode.key k, 2⟩ : Event)] = D := by
      simp [List.foldl, stepDown_key]
    rw [hD']
    refine ⟨by simp [noDup, okEv], ?_, ?_, ?_, ?_, ?_, hkmod, i11⟩
    · exact i7
    · exact i8
    · intro j hjmod hjg hDj
      rcases i5 j hjmod hjg hDj with h | h
      · exact Or.inl h
      · exact Or.inr h
    · intro h
      simp at h
    · exact i9

theorem keebStep_preserve (s : State) (phys D : Nat → Bool) (e : Event)
    (hInv : Inv s phys D) (hOk : okPhys phys e = true)
    (hGR : ¬ (e.code = EventCode.key KEY_GRAVE ∧ e.value = 2)) :
    noDup D (keebStep s e).2 = true ∧
    Inv (keebStep s e).1 (stepDown phys e)
      (List.foldl stepDown D (keebStep s e).2) := by
  rcases e with ⟨t, c, v⟩
  cases c with
  | key k =>
    by_cases hg : k = KEY_GRAVE
    · subst hg
      rcases okPhys_key hOk with ⟨hv, hp⟩ | ⟨hv, hp⟩ | ⟨hv, hp⟩ <;> subst hv
      · exact preserve_grave_press s phys D t hInv hp
      · exact preserve_grave_release s phys D t hInv hp
      · exact absurd ⟨rfl, rfl⟩ hGR
    · cases hmq : keymap k with
      | none => exact preserve_mod_key s phys D t k v hInv hg hmq hOk
      | some m =>
        have hmk : m = k := keymap_some_eq hmq
        subst hmk
        rcases okPhys_key hOk with ⟨hv, hp⟩ | ⟨hv, hp⟩ | ⟨hv, hp⟩ <;> subst hv
        · exact preserve_mapped_press s phys D t m hInv hg hmq hp
        · exact preserve_mapped_release s phys D t m hInv hg hmq hp
        · exact preserve_mapped_repeat s phys D t m hInv hg hmq hp
  | rel r => exact ⟨rfl, hInv⟩
  | syn r => exact ⟨rfl, hInv⟩
  | msc r => exact ⟨rfl, hInv⟩

theorem runKeeb_noDup (evs : List Event) :
    ∀ (s : State) (phys D : Nat → Bool), Inv s phys D →
      wf phys evs = true → graveRepeatFree evs = true →
      noDup D (runKeeb s evs).2 = true := by
  induction evs with
  | nil => intro s phys D _ _ _; rfl
  | cons e rest ih =>
    intro s phys D hInv hwf hgr
    have hwf' : (okPhys phys e && wf (stepDown phys e) rest) = true := hwf
    rw [Bool.and_eq_true] at hwf'
    obtain ⟨hok, hwf2⟩ := hwf'
    have hgr' : ((if e.code = EventCode.key KEY_GRAVE ∧ e.value = 2 then false
        else true) && graveRepeatFree rest) = true := hgr
    rw [Bool.and_eq_true] at hgr'
    obtain ⟨hgr1, hgr2⟩ := hgr'
    have hgrP : ¬ (e.code = EventCode.key KEY_GRAVE ∧ e.value = 2) := by
      intro hcon
      rw [if_pos hcon] at hgr1
      cases hgr1
    obtain ⟨hnd, hInv'⟩ := keebStep_preserve s phys D e hInv hok hgrP
    have hsplit : (runKeeb s (e :: rest)).2 =
        (keebStep s e).2 ++ (runKeeb (keebStep s e).1 rest).2 := by
      simp [runKeeb]
    rw [hsplit, noDup_append, hnd,
      ih (keebStep s e).1 (stepDown phys e)
        (List.foldl stepDown D (keebStep s e).2) hInv' hwf2 hgr2]
    rfl

/-- Counterexample to C4 as stated: `c4bad` is a well-formed physical
keyboard input sequence (keys 30 and 48 alternate press/release, the layer
key autorepeats while held), yet the output stream contains two presses of
key 30 with no intervening release of key 30 — the layer-key autorepeat
re-captures `current_key`, orphaning the earlier synthetic press of 30. -/
theorem claim4_counterexample :
    wf noKeys c4bad = true ∧
    noDup noKeys (runKeeb initState c4bad).2 = false := by decide

/-- Claim C4, amended: for every well-formed physical keyboard input
sequence that contains no autorepeat (value 2) event of the layer key,
starting from the initial state, the output stream never contains two press
events (value 1) for the same key code without an intervening release
(value 0) of that key code. -/
theorem claim4_no_duplicate_press (evs : List Event)
    (hwf : wf noKeys evs = true) (hgr : graveRepeatFree evs = true) :
    noDup noKeys (runKeeb initState evs).2 = true :=
  runKeeb_noDup evs initState noKeys noKeys Inv_init hwf hgr

/-- Witness for the amended C4 on a concrete collision-heavy sequence. -/
theorem claim4_no_duplicate_press_witness :
    wf noKeys
      [⟨0, EventCode.key 30, 1⟩, ⟨1, EventCode.key KEY_GRAVE, 1⟩,
       ⟨2, EventCode.key KEY_GRAVE, 0⟩, ⟨3, EventCode.key 30, 0⟩] = true ∧
    graveRepeatFree
      [⟨0, EventCode.key 30, 1⟩, ⟨1, EventCode.key KEY_GRAVE, 1⟩,
       ⟨2, EventCode.key KEY_GRAVE, 0⟩, ⟨3, EventCode.key 30, 0⟩] = true ∧
    noDup noKeys (runKeeb initState
      [⟨0, EventCode.key 30, 1⟩, ⟨1, EventCode.key KEY_GRAVE, 1⟩,
       ⟨2, EventCode.key KEY_GRAVE, 0⟩, ⟨3, EventCode.key 30, 0⟩]).2 = true :=
  ⟨by decide, by decide,
   claim4_no_duplicate_press
     [⟨0, EventCode.key 30, 1⟩, ⟨1, EventCode.key KEY_GRAVE, 1⟩,
      ⟨2, EventCode.key KEY_GRAVE, 0⟩, ⟨3, EventCode.key 30, 0⟩]
     (by decide) (by decide)⟩

end Sc2Remap
